import Mathlib

/-!
Shallow embedding of the LRU-K replacer (`src/buffer/lru_k_replacer.cpp`)
and proofs of the specification's claims about it.

The repository ships only the `.cpp` file; the class header (the `LRUKNode`
helper methods, `CheckFrameId`, and the members' initial values) is not in
the sources, so those parts are modelled from the specification and marked
as such in their doc comments.  Machine integers (`size_t`, `frame_id_t`)
are modelled as `Nat`: all quantities involved (timestamps, history lengths,
counts, validated frame ids) are non-negative and far from overflow in every
behaviour the claims speak about.
-/

namespace LRUK

/-- A frame's bookkeeping record.  Modelled from the spec: one record per
tracked frame id, holding the history window bound `k`, the frame id,
the access history (logical-clock values, oldest first), and the
evictable flag (a fresh record starts non-evictable). -/
structure LRUKNode where
  k : Nat
  fid : Nat
  history : List Nat
  evictable : Bool
deriving Repr, DecidableEq

namespace LRUKNode

/-- Modelled from the spec: a record with no recorded accesses is "empty". -/
def IsEmpty (n : LRUKNode) : Bool := n.history.isEmpty

/-- Modelled from the spec: number of recorded accesses retained. -/
def Size (n : LRUKNode) : Nat := n.history.length

/-- Modelled from the spec: the frame's single earliest known access, the
oldest retained history entry.  Only meaningful on non-empty records. -/
def EarliestTime (n : LRUKNode) : Nat := n.history.headD 0

/-- Modelled from the spec: the clock value of the k-th most recent access,
the oldest entry remaining once history is capped at `k` entries. -/
def LastKTime (n : LRUKNode) (k : Nat) : Nat :=
  (n.history.drop (n.history.length - k)).headD 0

/-- Modelled from the spec: append the new clock value to the history,
evicting the oldest entry first if the length already equals `k`. -/
def AddHistory (n : LRUKNode) (t : Nat) : LRUKNode :=
  { n with history :=
      (if n.history.length == n.k then n.history.tail else n.history) ++ [t] }

/-- Modelled from the spec: clearing a record empties its history and
resets the evictable flag to false, in place. -/
def ClearNode (n : LRUKNode) : LRUKNode :=
  { n with history := [], evictable := false }

/-- Modelled from the spec: set the evictable flag. -/
def SetEvictable (n : LRUKNode) (b : Bool) : LRUKNode :=
  { n with evictable := b }

end LRUKNode

/-- The errors the replacer surfaces to its caller: an out-of-range frame
id, and removing a pinned (non-evictable) frame. -/
inductive RepError where
  | invalidId
  | frameInUse
deriving Repr, DecidableEq

/-- The replacer's state: capacity, history bound `k`, the logical clock,
the node store, and the cached evictable count.  The node store is an
association list in insertion order with unique keys, standing for the
C++ map from frame id to `LRUKNode`.  Modelled from the spec where the
header is missing: clock and evictable count start at zero. -/
structure LRUKReplacer where
  maxNumFrames : Nat
  k : Nat
  currentTimestamp : Nat
  nodeStore : List (Nat × LRUKNode)
  replacerSize : Nat
deriving Repr, DecidableEq

/-- Replace the value stored under key `id` (the C++ `node_store_[id]`
update on a present key); entries under other keys are untouched. -/
def storeUpdate (store : List (Nat × LRUKNode)) (id : Nat)
    (f : LRUKNode → LRUKNode) : List (Nat × LRUKNode) :=
  store.map fun e => if e.1 = id then (e.1, f e.2) else e

namespace LRUKReplacer

/-- The freshly constructed replacer `LRUKReplacer(num_frames, k)`. -/
def init (numFrames k : Nat) : LRUKReplacer :=
  { maxNumFrames := numFrames, k := k, currentTimestamp := 0,
    nodeStore := [], replacerSize := 0 }

/-- Modelled from the spec: `CheckFrameId` fails with an invalid-identifier
condition when the id is outside `[0, capacity)`.  Ids are `Nat`, so only
the upper bound is checked. -/
def CheckFrameId (s : LRUKReplacer) (id : Nat) : Except RepError Unit :=
  if id < s.maxNumFrames then .ok () else .error .invalidId

/-- `LRUKReplacer::RecordAccess`: validate the id, create the record if
absent, advance the clock, append the new clock value to the history. -/
def RecordAccess (s : LRUKReplacer) (id : Nat) : Except RepError LRUKReplacer :=
  match s.CheckFrameId id with
  | .error e => .error e
  | .ok () =>
    let store₀ :=
      if (s.nodeStore.lookup id).isSome then s.nodeStore
      else s.nodeStore ++ [(id, LRUKNode.mk s.k id [] false)]
    let ts := s.currentTimestamp + 1
    .ok { s with currentTimestamp := ts,
                 nodeStore := storeUpdate store₀ id (·.AddHistory ts) }

/-- `LRUKReplacer::SetEvictable`: validate the id; no-op when the record is
absent or empty, or when the flag already has the requested value;
otherwise flip the flag and adjust the cached evictable count. -/
def SetEvictable (s : LRUKReplacer) (id : Nat) (b : Bool) :
    Except RepError LRUKReplacer :=
  match s.CheckFrameId id with
  | .error e => .error e
  | .ok () =>
    match s.nodeStore.lookup id with
    | none => .ok s
    | some n =>
      if n.IsEmpty then .ok s
      else if b && !n.evictable then
        .ok { s with replacerSize := s.replacerSize + 1,
                     nodeStore := storeUpdate s.nodeStore id (·.SetEvictable b) }
      else if !b && n.evictable then
        .ok { s with replacerSize := s.replacerSize - 1,
                     nodeStore := storeUpdate s.nodeStore id (·.SetEvictable b) }
      else .ok s

/-- `LRUKReplacer::Remove`: no-op on an untracked or empty record; throws
frame-in-use on a pinned record; otherwise clears the record and
decrements the evictable count.  (The C++ code performs no id-range
check here.) -/
def Remove (s : LRUKReplacer) (id : Nat) : Except RepError LRUKReplacer :=
  match s.nodeStore.lookup id with
  | none => .ok s
  | some n =>
    if n.IsEmpty then .ok s
    else if !n.evictable then .error .frameInUse
    else .ok { s with nodeStore := storeUpdate s.nodeStore id (·.ClearNode),
                      replacerSize := s.replacerSize - 1 }

end LRUKReplacer

/-- The loop-local variables of `LRUKReplacer::Evict`. -/
structure EvictAcc where
  hasInf : Bool
  earliestBackwardK : Nat
  earliestFewerK : Nat
  evictId : Option Nat
deriving Repr, DecidableEq

/-- One iteration of the scan in `LRUKReplacer::Evict` (lines 16-34 of the
C++ source), on the store entry `(fid, node)`. -/
def evictStep (k : Nat) (acc : EvictAcc) (e : Nat × LRUKNode) : EvictAcc :=
  let fid := e.1
  let node := e.2
  if !node.evictable || node.IsEmpty then acc
  else if node.Size < k then
    let earliest := node.EarliestTime
    if acc.earliestFewerK == 0 || earliest < acc.earliestFewerK then
      { acc with hasInf := true, earliestFewerK := earliest, evictId := some fid }
    else { acc with hasInf := true }
  else if !acc.hasInf && k ≤ node.Size then
    let lastK := node.LastKTime k
    if acc.earliestBackwardK == 0 || lastK < acc.earliestBackwardK then
      { acc with earliestBackwardK := lastK, evictId := some fid }
    else acc
  else acc

namespace LRUKReplacer

/-- `LRUKReplacer::Evict`: scan all records, select the victim, clear its
record and decrement the evictable count; returns the victim id (the
C++ out-parameter plus boolean success) and the new state. -/
def Evict (s : LRUKReplacer) : Option Nat × LRUKReplacer :=
  let acc := s.nodeStore.foldl (evictStep s.k) ⟨false, 0, 0, none⟩
  match acc.evictId with
  | none => (none, s)
  | some fid =>
    (some fid,
     { s with replacerSize := s.replacerSize - 1,
              nodeStore := storeUpdate s.nodeStore fid (·.ClearNode) })

/-- `LRUKReplacer::Size`: the cached evictable count. -/
def Size (s : LRUKReplacer) : Nat := s.replacerSize

end LRUKReplacer

/-- The caller-visible operations, for describing reachable states. -/
inductive Op where
  | record (id : Nat)
  | setEvictable (id : Nat) (b : Bool)
  | remove (id : Nat)
  | evict
deriving Repr, DecidableEq

/-- Apply one operation; a failing operation (a thrown exception in the
C++ code) leaves the state unchanged, since every throw happens before
any mutation. -/
def applyOp (s : LRUKReplacer) (op : Op) : LRUKReplacer :=
  match op with
  | .record id => ((s.RecordAccess id).toOption).getD s
  | .setEvictable id b => ((s.SetEvictable id b).toOption).getD s
  | .remove id => ((s.Remove id).toOption).getD s
  | .evict => (s.Evict).2

/-- States reachable from a freshly constructed replacer by any sequence
of `RecordAccess`, `SetEvictable`, `Remove` and `Evict` calls. -/
inductive Reachable (cap k : Nat) : LRUKReplacer → Prop where
  | init : Reachable cap k (LRUKReplacer.init cap k)
  | step (s : LRUKReplacer) (op : Op) :
      Reachable cap k s → Reachable cap k (applyOp s op)

/-- Run a list of operations from the initial state. -/
def runOps (cap k : Nat) (ops : List Op) : LRUKReplacer :=
  ops.foldl applyOp (LRUKReplacer.init cap k)

theorem reachable_foldl (cap k : Nat) (ops : List Op) :
    ∀ s, Reachable cap k s → Reachable cap k (ops.foldl applyOp s) := by
  induction ops with
  | nil => intro s hs; exact hs
  | cons op rest ih =>
    intro s hs
    exact ih (applyOp s op) (Reachable.step s op hs)

theorem reachable_runOps (cap k : Nat) (ops : List Op) :
    Reachable cap k (runOps cap k ops) :=
  reachable_foldl cap k ops _ (Reachable.init)

/-- An evictable, non-empty record: the frames the eviction scan considers. -/
def isCand (n : LRUKNode) : Bool := n.evictable && !n.IsEmpty

/-- A candidate with fewer than `k` recorded accesses ("Short"). -/
def isShort (k : Nat) (n : LRUKNode) : Bool := isCand n && n.Size < k

/-- A candidate with `k` or more recorded accesses ("Full"). -/
def isFull (k : Nat) (n : LRUKNode) : Bool := isCand n && k ≤ n.Size

/-! ### Association-list helper lemmas -/

theorem lookup_cons (a : Nat × LRUKNode) (l : List (Nat × LRUKNode)) (i : Nat) :
    ((a :: l).lookup i) = if i = a.1 then some a.2 else l.lookup i := by
  rcases a with ⟨x, y⟩
  simp only [List.lookup]
  split <;> simp_all

theorem forall_ne_of_lookup_eq_none {l : List (Nat × LRUKNode)} {i : Nat}
    (h : l.lookup i = none) : ∀ e ∈ l, e.1 ≠ i := by
  induction l with
  | nil => simp
  | cons a l ih =>
    rw [lookup_cons] at h
    split at h
    · exact absurd h (by simp)
    · intro e he
      rcases List.mem_cons.mp he with rfl | he
      · rename_i hne; exact fun hc => hne hc.symm
      · exact ih h e he

theorem lookup_eq_none_of_forall_ne {l : List (Nat × LRUKNode)} {i : Nat}
    (h : ∀ e ∈ l, e.1 ≠ i) : l.lookup i = none := by
  induction l with
  | nil => rfl
  | cons a l ih =>
    rw [lookup_cons]
    have ha := h a (List.mem_cons_self a l)
    rw [if_neg (fun hc => ha hc.symm)]
    exact ih fun e he => h e (List.mem_cons_of_mem a he)

theorem mem_of_lookup_eq_some {l : List (Nat × LRUKNode)} {i : Nat} {n : LRUKNode}
    (h : l.lookup i = some n) : (i, n) ∈ l := by
  induction l with
  | nil => simp [List.lookup] at h
  | cons a l ih =>
    rw [lookup_cons] at h
    split at h
    · rcases a with ⟨x, y⟩
      simp only [Option.some.injEq] at h
      simp_all
    · exact List.mem_cons_of_mem a (ih h)

theorem lookup_eq_some_of_mem {l : List (Nat × LRUKNode)} {i : Nat} {n : LRUKNode}
    (hnd : (l.map Prod.fst).Nodup) (h : (i, n) ∈ l) : l.lookup i = some n := by
  induction l with
  | nil => simp at h
  | cons a l ih =>
    rw [List.map_cons, List.nodup_cons] at hnd
    rw [lookup_cons]
    rcases List.mem_cons.mp h with rfl | h
    · simp
    · have hne : i ≠ a.1 := by
        intro hc
        exact hnd.1 (hc ▸ List.mem_map_of_mem Prod.fst h)
      rw [if_neg hne]
      exact ih hnd.2 h

theorem storeUpdate_keys (store : List (Nat × LRUKNode)) (id : Nat)
    (f : LRUKNode → LRUKNode) :
    (storeUpdate store id f).map Prod.fst = store.map Prod.fst := by
  unfold storeUpdate
  rw [List.map_map]
  apply List.map_congr_left
  intro e _
  by_cases h : e.1 = id <;> simp [h]

theorem storeUpdate_eq_self {store : List (Nat × LRUKNode)} {id : Nat}
    (f : LRUKNode → LRUKNode) (h : ∀ e ∈ store, e.1 ≠ id) :
    storeUpdate store id f = store := by
  induction store with
  | nil => rfl
  | cons a l ih =>
    unfold storeUpdate at *
    rw [List.map_cons, if_neg (h a (List.mem_cons_self a l)),
      ih fun e he => h e (List.mem_cons_of_mem a he)]

theorem lookup_storeUpdate_self {store : List (Nat × LRUKNode)} {id : Nat} {n : LRUKNode}
    (f : LRUKNode → LRUKNode) (h : store.lookup id = some n) :
    (storeUpdate store id f).lookup id = some (f n) := by
  induction store with
  | nil => simp [List.lookup] at h
  | cons a l ih =>
    rw [lookup_cons] at h
    unfold storeUpdate
    rw [List.map_cons]
    by_cases ha : a.1 = id
    · rw [if_pos ha, lookup_cons]
      simp only [if_pos (ha.symm)]
      rw [if_pos ha.symm] at h
      simp_all
    · rw [if_neg ha, lookup_cons, if_neg (fun hc => ha hc.symm)]
      rw [if_neg (fun hc => ha hc.symm)] at h
      exact ih h

theorem countP_storeUpdate {store : List (Nat × LRUKNode)} {id : Nat} {n : LRUKNode}
    (q : LRUKNode → Bool) (f : LRUKNode → LRUKNode)
    (hnd : (store.map Prod.fst).Nodup) (h : store.lookup id = some n) :
    (storeUpdate store id f).countP (fun e => q e.2) + (if q n then 1 else 0)
      = store.countP (fun e => q e.2) + (if q (f n) then 1 else 0) := by
  induction store with
  | nil => simp [List.lookup] at h
  | cons a l ih =>
    rw [List.map_cons, List.nodup_cons] at hnd
    rw [lookup_cons] at h
    unfold storeUpdate
    rw [List.map_cons, List.countP_cons, List.countP_cons]
    by_cases ha : a.1 = id
    · rw [if_pos ha]
      rw [if_pos ha.symm] at h
      simp only [Option.some.injEq] at h
      subst h
      have : storeUpdate l id f = l :=
        storeUpdate_eq_self f fun e he hc =>
          hnd.1 (ha ▸ hc ▸ List.mem_map_of_mem Prod.fst he)
      unfold storeUpdate at this
      rw [this]
      dsimp only
      omega
    · rw [if_neg ha]
      rw [if_neg (fun hc => ha hc.symm)] at h
      have := ih hnd.2 h
      unfold storeUpdate at this
      omega

/-! ### Candidate predicates and the eviction scan -/

theorem isCand_of_isShort {k : Nat} {n : LRUKNode} (h : isShort k n = true) :
    isCand n = true := by
  unfold isShort at h
  simp only [Bool.and_eq_true] at h
  exact h.1

theorem isCand_of_isFull {k : Nat} {n : LRUKNode} (h : isFull k n = true) :
    isCand n = true := by
  unfold isFull at h
  simp only [Bool.and_eq_true] at h
  exact h.1

theorem size_lt_of_isShort {k : Nat} {n : LRUKNode} (h : isShort k n = true) :
    n.Size < k := by
  unfold isShort at h
  simp only [Bool.and_eq_true] at h
  exact of_decide_eq_true h.2

theorem le_size_of_isFull {k : Nat} {n : LRUKNode} (h : isFull k n = true) :
    k ≤ n.Size := by
  unfold isFull at h
  simp only [Bool.and_eq_true] at h
  exact of_decide_eq_true h.2

theorem isShort_eq_true_iff {k : Nat} {n : LRUKNode} :
    isShort k n = true ↔ isCand n = true ∧ n.Size < k := by
  unfold isShort
  simp [Bool.and_eq_true]

theorem isFull_eq_true_iff {k : Nat} {n : LRUKNode} :
    isFull k n = true ↔ isCand n = true ∧ k ≤ n.Size := by
  unfold isFull
  simp [Bool.and_eq_true]

theorem history_ne_nil_of_isCand {n : LRUKNode} (h : isCand n = true) :
    n.history ≠ [] := by
  unfold isCand LRUKNode.IsEmpty at h
  simp only [Bool.and_eq_true] at h
  simpa using h.2

theorem headD_mem {l : List Nat} (h : l ≠ []) : l.headD 0 ∈ l := by
  cases l with
  | nil => exact absurd rfl h
  | cons a l => exact List.mem_cons_self a l

theorem EarliestTime_mem {n : LRUKNode} (h : n.history ≠ []) :
    n.EarliestTime ∈ n.history := headD_mem h

theorem LastKTime_mem {n : LRUKNode} {k : Nat} (hk : 1 ≤ k)
    (h : k ≤ n.history.length) : n.LastKTime k ∈ n.history := by
  unfold LRUKNode.LastKTime
  have hlen : (n.history.drop (n.history.length - k)).length = k := by
    rw [List.length_drop]; omega
  have hne : n.history.drop (n.history.length - k) ≠ [] := by
    intro hc; rw [hc] at hlen; simp at hlen; omega
  exact List.drop_subset _ _ (headD_mem hne)

/-- The properties of a store entry that keep the zero-valued sentinels of
the eviction scan from colliding with a real timestamp. -/
def posNode (k : Nat) (n : LRUKNode) : Prop :=
  (isCand n = true → 1 ≤ n.EarliestTime) ∧ (isFull k n = true → 1 ≤ n.LastKTime k)

theorem evictStep_skip {k : Nat} {acc : EvictAcc} {hd : Nat × LRUKNode}
    (h : isCand hd.2 = false) : evictStep k acc hd = acc := by
  unfold evictStep
  have hg : (!hd.2.evictable || hd.2.IsEmpty) = true := by
    unfold isCand at h
    cases he : hd.2.evictable <;> cases hi : hd.2.IsEmpty <;> simp_all
  simp [hg]

theorem evictStep_short_new {k : Nat} {acc : EvictAcc} {hd : Nat × LRUKNode}
    (hc : isCand hd.2 = true) (hs : hd.2.Size < k)
    (hcond : acc.earliestFewerK = 0 ∨ hd.2.EarliestTime < acc.earliestFewerK) :
    evictStep k acc hd =
      { acc with hasInf := true, earliestFewerK := hd.2.EarliestTime,
                 evictId := some hd.1 } := by
  unfold evictStep
  have hg : (!hd.2.evictable || hd.2.IsEmpty) = false := by
    unfold isCand at hc
    cases he : hd.2.evictable <;> cases hi : hd.2.IsEmpty <;> simp_all
  have hcb : (acc.earliestFewerK == 0 || decide (hd.2.EarliestTime < acc.earliestFewerK))
      = true := by
    rcases hcond with h0 | hlt
    · simp [h0]
    · simp [hlt]
  simp [hg, hs, hcb]

theorem evictStep_short_keep {k : Nat} {acc : EvictAcc} {hd : Nat × LRUKNode}
    (hc : isCand hd.2 = true) (hs : hd.2.Size < k)
    (h0 : acc.earliestFewerK ≠ 0) (hge : ¬ hd.2.EarliestTime < acc.earliestFewerK) :
    evictStep k acc hd = { acc with hasInf := true } := by
  unfold evictStep
  have hg : (!hd.2.evictable || hd.2.IsEmpty) = false := by
    unfold isCand at hc
    cases he : hd.2.evictable <;> cases hi : hd.2.IsEmpty <;> simp_all
  have hcb : (acc.earliestFewerK == 0 || decide (hd.2.EarliestTime < acc.earliestFewerK))
      = false := by
    simp [h0, hge]
  simp [hg, hs, hcb]

theorem evictStep_full_skip {k : Nat} {acc : EvictAcc} {hd : Nat × LRUKNode}
    (hc : isCand hd.2 = true) (hs : ¬ hd.2.Size < k) (hinf : acc.hasInf = true) :
    evictStep k acc hd = acc := by
  unfold evictStep
  have hg : (!hd.2.evictable || hd.2.IsEmpty) = false := by
    unfold isCand at hc
    cases he : hd.2.evictable <;> cases hi : hd.2.IsEmpty <;> simp_all
  simp [hg, hs, hinf]

theorem evictStep_full_new {k : Nat} {acc : EvictAcc} {hd : Nat × LRUKNode}
    (hc : isCand hd.2 = true) (hs : ¬ hd.2.Size < k) (hinf : acc.hasInf = false)
    (hcond : acc.earliestBackwardK = 0 ∨ hd.2.LastKTime k < acc.earliestBackwardK) :
    evictStep k acc hd =
      { acc with earliestBackwardK := hd.2.LastKTime k, evictId := some hd.1 } := by
  unfold evictStep
  have hg : (!hd.2.evictable || hd.2.IsEmpty) = false := by
    unfold isCand at hc
    cases he : hd.2.evictable <;> cases hi : hd.2.IsEmpty <;> simp_all
  have hcb : (acc.earliestBackwardK == 0 || decide (hd.2.LastKTime k < acc.earliestBackwardK))
      = true := by
    rcases hcond with h0 | hlt
    · simp [h0]
    · simp [hlt]
  simp [hg, hs, hinf, Nat.le_of_not_lt hs, hcb]

theorem evictStep_full_keep {k : Nat} {acc : EvictAcc} {hd : Nat × LRUKNode}
    (hc : isCand hd.2 = true) (hs : ¬ hd.2.Size < k) (hinf : acc.hasInf = false)
    (h0 : acc.earliestBackwardK ≠ 0) (hge : ¬ hd.2.LastKTime k < acc.earliestBackwardK) :
    evictStep k acc hd = acc := by
  unfold evictStep
  have hg : (!hd.2.evictable || hd.2.IsEmpty) = false := by
    unfold isCand at hc
    cases he : hd.2.evictable <;> cases hi : hd.2.IsEmpty <;> simp_all
  have hcb : (acc.earliestBackwardK == 0 || decide (hd.2.LastKTime k < acc.earliestBackwardK))
      = false := by
    simp [h0, hge]
  simp [hg, hs, hinf, Nat.le_of_not_lt hs, hcb]

theorem bool_ne_true_of_eq_false {b : Bool} (h : b = false) : b ≠ true := by
  simp [h]

/-- The loop invariant of the eviction scan: after processing the prefix
`p` of the store, the accumulator records the best Short candidate seen
so far when one exists, and otherwise the best Full candidate seen. -/
def Good (k : Nat) (p : List (Nat × LRUKNode)) (acc : EvictAcc) : Prop :=
  (acc.hasInf = true ↔ ∃ e ∈ p, isShort k e.2 = true) ∧
  (acc.hasInf = true →
    ∃ e ∈ p, isShort k e.2 = true ∧ acc.evictId = some e.1 ∧
      acc.earliestFewerK = e.2.EarliestTime ∧
      ∀ g ∈ p, isShort k g.2 = true → e.2.EarliestTime ≤ g.2.EarliestTime) ∧
  (acc.hasInf = false →
    acc.earliestFewerK = 0 ∧
    ((acc.evictId = none ∧ acc.earliestBackwardK = 0 ∧
        ∀ e ∈ p, isFull k e.2 = false) ∨
     (∃ e ∈ p, isFull k e.2 = true ∧ acc.evictId = some e.1 ∧
        acc.earliestBackwardK = e.2.LastKTime k ∧
        ∀ g ∈ p, isFull k g.2 = true → e.2.LastKTime k ≤ g.2.LastKTime k)))

theorem good_init (k : Nat) : Good k [] ⟨false, 0, 0, none⟩ := by
  refine ⟨by simp, by simp, fun _ => ⟨rfl, Or.inl ⟨rfl, rfl, by simp⟩⟩⟩

theorem good_step (k : Nat) (p : List (Nat × LRUKNode)) (acc : EvictAcc)
    (hd : Nat × LRUKNode) (hp : ∀ e ∈ p, posNode k e.2) (_hhd : posNode k hd.2)
    (hg : Good k p acc) : Good k (p ++ [hd]) (evictStep k acc hd) := by
  obtain ⟨hg1, hg2, hg3⟩ := hg
  by_cases hcand : isCand hd.2 = true
  · by_cases hshort : hd.2.Size < k
    · -- hd is a Short candidate
      have hhds : isShort k hd.2 = true := isShort_eq_true_iff.mpr ⟨hcand, hshort⟩
      cases hinf : acc.hasInf with
      | false =>
        have hfk0 : acc.earliestFewerK = 0 := (hg3 hinf).1
        rw [evictStep_short_new hcand hshort (Or.inl hfk0)]
        refine ⟨⟨fun _ => ⟨hd, by simp, hhds⟩, fun _ => rfl⟩, ?_, ?_⟩
        · intro _
          refine ⟨hd, by simp, hhds, rfl, rfl, ?_⟩
          intro g hgmem hgs
          rcases List.mem_append.mp hgmem with hgp | hgone
          · exact absurd (hg1.mpr ⟨g, hgp, hgs⟩) (bool_ne_true_of_eq_false hinf)
          · rw [List.mem_singleton.mp hgone]
        · intro hcontra
          simp at hcontra
      | true =>
        obtain ⟨e, hep, hes, hid, hfk, hmin⟩ := hg2 hinf
        have hfkpos : 1 ≤ e.2.EarliestTime := (hp e hep).1 (isCand_of_isShort hes)
        by_cases hlt : hd.2.EarliestTime < acc.earliestFewerK
        · rw [evictStep_short_new hcand hshort (Or.inr hlt)]
          refine ⟨⟨fun _ => ⟨hd, by simp, hhds⟩, fun _ => rfl⟩, ?_, ?_⟩
          · intro _
            refine ⟨hd, by simp, hhds, rfl, rfl, ?_⟩
            intro g hgmem hgs
            rcases List.mem_append.mp hgmem with hgp | hgone
            · have h1 := hmin g hgp hgs
              rw [hfk] at hlt
              omega
            · rw [List.mem_singleton.mp hgone]
          · intro hcontra
            simp at hcontra
        · rw [evictStep_short_keep hcand hshort (by omega) hlt]
          refine ⟨⟨fun _ => ⟨e, List.mem_append_left _ hep, hes⟩, fun _ => rfl⟩, ?_, ?_⟩
          · intro _
            refine ⟨e, List.mem_append_left _ hep, hes, hid, hfk, ?_⟩
            intro g hgmem hgs
            rcases List.mem_append.mp hgmem with hgp | hgone
            · exact hmin g hgp hgs
            · rw [List.mem_singleton.mp hgone]
              rw [hfk] at hlt
              omega
          · intro hcontra
            simp at hcontra
    · -- hd is a Full candidate
      have hhdf : isFull k hd.2 = true :=
        isFull_eq_true_iff.mpr ⟨hcand, Nat.le_of_not_lt hshort⟩
      have hhdns : isShort k hd.2 = false := by
        cases hb : isShort k hd.2
        · rfl
        · exact absurd (size_lt_of_isShort hb) hshort
      cases hinf : acc.hasInf with
      | true =>
        rw [evictStep_full_skip hcand hshort hinf]
        obtain ⟨e, hep, hes, hid, hfk, hmin⟩ := hg2 hinf
        refine ⟨⟨fun _ => ⟨e, List.mem_append_left _ hep, hes⟩, fun _ => hinf⟩, ?_, ?_⟩
        · intro _
          refine ⟨e, List.mem_append_left _ hep, hes, hid, hfk, ?_⟩
          intro g hgmem hgs
          rcases List.mem_append.mp hgmem with hgp | hgone
          · exact hmin g hgp hgs
          · rw [List.mem_singleton.mp hgone] at hgs
            rw [hhdns] at hgs
            simp at hgs
        · intro hcontra
          rw [hinf] at hcontra
          simp at hcontra
      | false =>
        obtain ⟨hfk0, hrest⟩ := hg3 hinf
        have hnoshortp : ∀ e ∈ p, isShort k e.2 = false := by
          intro e he
          cases hb : isShort k e.2
          · rfl
          · exact absurd (hg1.mpr ⟨e, he, hb⟩) (bool_ne_true_of_eq_false hinf)
        have hiff : ((evictStep k acc hd).hasInf = acc.hasInf) →
            True := fun _ => trivial
        rcases hrest with ⟨hid, hbk0, hnofull⟩ | ⟨e, hep, hef, hid, hbk, hmin⟩
        · rw [evictStep_full_new hcand hshort hinf (Or.inl hbk0)]
          refine ⟨?_, ?_, ?_⟩
          · constructor
            · intro h
              exact absurd h (bool_ne_true_of_eq_false hinf)
            · intro hex
              obtain ⟨g, hgmem, hgs⟩ := hex
              rcases List.mem_append.mp hgmem with hgp | hgone
              · rw [hnoshortp g hgp] at hgs
                simp at hgs
              · rw [List.mem_singleton.mp hgone] at hgs
                rw [hhdns] at hgs
                simp at hgs
          · intro h
            exact absurd h (bool_ne_true_of_eq_false hinf)
          · intro _
            refine ⟨hfk0, Or.inr ⟨hd, by simp, hhdf, rfl, rfl, ?_⟩⟩
            intro g hgmem hgf
            rcases List.mem_append.mp hgmem with hgp | hgone
            · rw [hnofull g hgp] at hgf
              simp at hgf
            · rw [List.mem_singleton.mp hgone]
        · have hbkpos : 1 ≤ e.2.LastKTime k := (hp e hep).2 hef
          by_cases hlt : hd.2.LastKTime k < acc.earliestBackwardK
          · rw [evictStep_full_new hcand hshort hinf (Or.inr hlt)]
            refine ⟨?_, ?_, ?_⟩
            · constructor
              · intro h
                exact absurd h (bool_ne_true_of_eq_false hinf)
              · intro hex
                obtain ⟨g, hgmem, hgs⟩ := hex
                rcases List.mem_append.mp hgmem with hgp | hgone
                · rw [hnoshortp g hgp] at hgs
                  simp at hgs
                · rw [List.mem_singleton.mp hgone] at hgs
                  rw [hhdns] at hgs
                  simp at hgs
            · intro h
              exact absurd h (bool_ne_true_of_eq_false hinf)
            · intro _
              refine ⟨hfk0, Or.inr ⟨hd, by simp, hhdf, rfl, rfl, ?_⟩⟩
              intro g hgmem hgf
              rcases List.mem_append.mp hgmem with hgp | hgone
              · have h1 := hmin g hgp hgf
                rw [hbk] at hlt
                omega
              · rw [List.mem_singleton.mp hgone]
          · rw [evictStep_full_keep hcand hshort hinf (by omega) hlt]
            refine ⟨?_, ?_, ?_⟩
            · constructor
              · intro h
                exact absurd h (bool_ne_true_of_eq_false hinf)
              · intro hex
                obtain ⟨g, hgmem, hgs⟩ := hex
                rcases List.mem_append.mp hgmem with hgp | hgone
                · rw [hnoshortp g hgp] at hgs
                  simp at hgs
                · rw [List.mem_singleton.mp hgone] at hgs
                  rw [hhdns] at hgs
                  simp at hgs
            · intro h
              exact absurd h (bool_ne_true_of_eq_false hinf)
            · intro _
              refine ⟨hfk0, Or.inr ⟨e, List.mem_append_left _ hep, hef, hid, hbk, ?_⟩⟩
              intro g hgmem hgf
              rcases List.mem_append.mp hgmem with hgp | hgone
              · exact hmin g hgp hgf
              · rw [List.mem_singleton.mp hgone]
                rw [hbk] at hlt
                omega
  · -- hd is not a candidate: the step leaves the accumulator unchanged
    have hcand' : isCand hd.2 = false := Bool.not_eq_true _ ▸ hcand
    have hhdns : isShort k hd.2 = false := by
      cases hb : isShort k hd.2
      · rfl
      · exact absurd (isCand_of_isShort hb) (bool_ne_true_of_eq_false hcand')
    have hhdnf : isFull k hd.2 = false := by
      cases hb : isFull k hd.2
      · rfl
      · exact absurd (isCand_of_isFull hb) (bool_ne_true_of_eq_false hcand')
    rw [evictStep_skip hcand']
    refine ⟨?_, ?_, ?_⟩
    · rw [hg1]
      constructor
      · intro ⟨g, hgp, hgs⟩
        exact ⟨g, List.mem_append_left _ hgp, hgs⟩
      · intro ⟨g, hgmem, hgs⟩
        rcases List.mem_append.mp hgmem with hgp | hgone
        · exact ⟨g, hgp, hgs⟩
        · rw [List.mem_singleton.mp hgone] at hgs
          rw [hhdns] at hgs
          simp at hgs
    · intro h
      obtain ⟨e, hep, hes, hid, hfk, hmin⟩ := hg2 h
      refine ⟨e, List.mem_append_left _ hep, hes, hid, hfk, ?_⟩
      intro g hgmem hgs
      rcases List.mem_append.mp hgmem with hgp | hgone
      · exact hmin g hgp hgs
      · rw [List.mem_singleton.mp hgone] at hgs
        rw [hhdns] at hgs
        simp at hgs
    · intro h
      obtain ⟨hfk0, hrest⟩ := hg3 h
      refine ⟨hfk0, ?_⟩
      rcases hrest with ⟨hid, hbk0, hnofull⟩ | ⟨e, hep, hef, hid, hbk, hmin⟩
      · refine Or.inl ⟨hid, hbk0, ?_⟩
        intro g hgmem
        rcases List.mem_append.mp hgmem with hgp | hgone
        · exact hnofull g hgp
        · rw [List.mem_singleton.mp hgone]
          exact hhdnf
      · refine Or.inr ⟨e, List.mem_append_left _ hep, hef, hid, hbk, ?_⟩
        intro g hgmem hgf
        rcases List.mem_append.mp hgmem with hgp | hgone
        · exact hmin g hgp hgf
        · rw [List.mem_singleton.mp hgone] at hgf
          rw [hhdnf] at hgf
          simp at hgf

theorem good_fold (k : Nat) (l : List (Nat × LRUKNode)) :
    ∀ (p : List (Nat × LRUKNode)) (acc : EvictAcc),
      (∀ e ∈ p, posNode k e.2) → (∀ e ∈ l, posNode k e.2) → Good k p acc →
      Good k (p ++ l) (l.foldl (evictStep k) acc) := by
  induction l with
  | nil =>
    intro p acc _ _ hg
    simpa using hg
  | cons hd tl ih =>
    intro p acc hp hl hg
    have hstep := good_step k p acc hd hp (hl hd (List.mem_cons_self hd tl)) hg
    have hrec := ih (p ++ [hd]) (evictStep k acc hd)
      (by
        intro e he
        rcases List.mem_append.mp he with hep | heone
        · exact hp e hep
        · rw [List.mem_singleton.mp heone]
          exact hl hd (List.mem_cons_self hd tl))
      (fun e he => hl e (List.mem_cons_of_mem hd he)) hstep
    simpa [List.append_assoc] using hrec

theorem good_scan (k : Nat) (store : List (Nat × LRUKNode))
    (hpos : ∀ e ∈ store, posNode k e.2) :
    Good k store (store.foldl (evictStep k) ⟨false, 0, 0, none⟩) := by
  have := good_fold k store [] ⟨false, 0, 0, none⟩ (by simp) hpos (good_init k)
  simpa using this

/-! ### The reachable-state invariant -/

/-- Entry `a`'s history shares no clock value with entry `b`'s. -/
def disjHist (a b : Nat × LRUKNode) : Prop :=
  ∀ t ∈ a.2.history, t ∉ b.2.history

/-- Everything that holds of every reachable replacer state. -/
structure Inv (cap k : Nat) (s : LRUKReplacer) : Prop where
  cap_eq : s.maxNumFrames = cap
  k_eq : s.k = k
  keys_nodup : (s.nodeStore.map Prod.fst).Nodup
  keys_lt : ∀ e ∈ s.nodeStore, e.1 < cap
  node_k : ∀ e ∈ s.nodeStore, e.2.k = k
  hist_sorted : ∀ e ∈ s.nodeStore, List.Chain' (· < ·) e.2.history
  hist_pos : ∀ e ∈ s.nodeStore, ∀ t ∈ e.2.history, 1 ≤ t
  hist_le : ∀ e ∈ s.nodeStore, ∀ t ∈ e.2.history, t ≤ s.currentTimestamp
  hist_len : ∀ e ∈ s.nodeStore, e.2.history.length ≤ k
  disj : List.Pairwise disjHist s.nodeStore
  empty_not_ev : ∀ e ∈ s.nodeStore, e.2.history = [] → e.2.evictable = false
  size_eq : s.replacerSize = s.nodeStore.countP fun e => e.2.evictable

theorem posNode_of_inv {cap k : Nat} {s : LRUKReplacer} (hk : 1 ≤ k)
    (hinv : Inv cap k s) : ∀ e ∈ s.nodeStore, posNode k e.2 := by
  intro e he
  constructor
  · intro hc
    exact hinv.hist_pos e he _ (EarliestTime_mem (history_ne_nil_of_isCand hc))
  · intro hf
    exact hinv.hist_pos e he _ (LastKTime_mem hk (le_size_of_isFull hf))

theorem inv_init (cap k : Nat) : Inv cap k (LRUKReplacer.init cap k) := by
  refine ⟨rfl, rfl, List.nodup_nil, by simp [LRUKReplacer.init],
    by simp [LRUKReplacer.init], by simp [LRUKReplacer.init],
    by simp [LRUKReplacer.init], by simp [LRUKReplacer.init],
    by simp [LRUKReplacer.init], List.Pairwise.nil,
    by simp [LRUKReplacer.init], rfl⟩

theorem not_mem_keys_of_lookup_eq_none {l : List (Nat × LRUKNode)} {i : Nat}
    (h : l.lookup i = none) : i ∉ l.map Prod.fst := by
  intro hmem
  obtain ⟨e, he, heq⟩ := List.mem_map.mp hmem
  exact forall_ne_of_lookup_eq_none h e he heq

theorem eq_of_mem_key {store : List (Nat × LRUKNode)} {id : Nat} {n : LRUKNode}
    (hnd : (store.map Prod.fst).Nodup) (hl : store.lookup id = some n)
    {e : Nat × LRUKNode} (he : e ∈ store) (hk : e.1 = id) : e.2 = n := by
  have hmem : (id, e.2) ∈ store := by
    rw [← hk]
    exact he
  have := lookup_eq_some_of_mem hnd hmem
  rw [hl] at this
  exact (Option.some.injEq _ _ ▸ this).symm

theorem mem_storeUpdate {store : List (Nat × LRUKNode)} {id : Nat}
    {f : LRUKNode → LRUKNode} {x : Nat × LRUKNode}
    (h : x ∈ storeUpdate store id f) :
    ∃ e ∈ store, x.1 = e.1 ∧ (x.2 = e.2 ∨ (e.1 = id ∧ x.2 = f e.2)) := by
  obtain ⟨e, he, heq⟩ := List.mem_map.mp h
  by_cases hc : e.1 = id
  · rw [if_pos hc] at heq
    exact ⟨e, he, by rw [← heq], Or.inr ⟨hc, by rw [← heq]⟩⟩
  · rw [if_neg hc] at heq
    exact ⟨e, he, by rw [← heq], Or.inl (by rw [← heq])⟩

theorem countP_storeUpdate_of_preserve {store : List (Nat × LRUKNode)} {id : Nat}
    {f : LRUKNode → LRUKNode} (hf : ∀ n, (f n).evictable = n.evictable) :
    (storeUpdate store id f).countP (fun e => e.2.evictable)
      = store.countP fun e => e.2.evictable := by
  unfold storeUpdate
  rw [List.countP_map]
  apply List.countP_congr
  intro e _
  by_cases hc : e.1 = id <;> simp [Function.comp, hc, hf]

theorem countP_setflag {store : List (Nat × LRUKNode)} {id : Nat} {n : LRUKNode}
    (b : Bool) (hnd : (store.map Prod.fst).Nodup) (hl : store.lookup id = some n) :
    (storeUpdate store id (·.SetEvictable b)).countP (fun e => e.2.evictable)
        + (if n.evictable then 1 else 0)
      = store.countP (fun e => e.2.evictable) + (if b then 1 else 0) := by
  have h := countP_storeUpdate (fun m => m.evictable) (·.SetEvictable b) hnd hl
  simpa [LRUKNode.SetEvictable] using h

theorem countP_clear {store : List (Nat × LRUKNode)} {id : Nat} {n : LRUKNode}
    (hnd : (store.map Prod.fst).Nodup) (hl : store.lookup id = some n) :
    (storeUpdate store id (·.ClearNode)).countP (fun e => e.2.evictable)
        + (if n.evictable then 1 else 0)
      = store.countP fun e => e.2.evictable := by
  have h := countP_storeUpdate (fun m => m.evictable) (·.ClearNode) hnd hl
  simpa [LRUKNode.ClearNode] using h

/-! ### Node-level lemmas about AddHistory -/

theorem addHistory_empty (kk fid : Nat) (b : Bool) (t : Nat) :
    (LRUKNode.mk kk fid [] b).AddHistory t = LRUKNode.mk kk fid [t] b := by
  unfold LRUKNode.AddHistory
  cases h : (([] : List Nat).length == kk) <;> simp_all

theorem addHistory_mem {n : LRUKNode} {t x : Nat}
    (hx : x ∈ (n.AddHistory t).history) : x ∈ n.history ∨ x = t := by
  unfold LRUKNode.AddHistory at hx
  dsimp only at hx
  rcases List.mem_append.mp hx with h | h
  · split at h
    · exact Or.inl ((List.tail_sublist _).subset h)
    · exact Or.inl h
  · exact Or.inr (List.mem_singleton.mp h)

theorem chain'_append_singleton {l : List Nat} {t : Nat}
    (hs : List.Chain' (· < ·) l) (hlt : ∀ x ∈ l, x < t) :
    List.Chain' (· < ·) (l ++ [t]) := by
  apply List.chain'_append.mpr
  refine ⟨hs, List.chain'_singleton t, ?_⟩
  intro x hx y hy
  have hx' : x ∈ l := by
    obtain ⟨hne, heq⟩ := List.mem_getLast?_eq_getLast hx
    rw [heq]
    exact List.getLast_mem hne
  have hy' : t = y := by simpa using hy
  rw [← hy']
  exact hlt x hx'

theorem addHistory_sorted {n : LRUKNode} {t : Nat}
    (hs : List.Chain' (· < ·) n.history) (hlt : ∀ x ∈ n.history, x < t) :
    List.Chain' (· < ·) (n.AddHistory t).history := by
  unfold LRUKNode.AddHistory
  dsimp only
  split
  · exact chain'_append_singleton hs.tail
      fun x hx => hlt x ((List.tail_sublist _).subset hx)
  · exact chain'_append_singleton hs hlt

theorem addHistory_length {n : LRUKNode} {t k : Nat} (hk : 1 ≤ k)
    (hnk : n.k = k) (hlen : n.history.length ≤ k) :
    (n.AddHistory t).history.length ≤ k := by
  unfold LRUKNode.AddHistory
  dsimp only
  rw [List.length_append]
  split
  · rename_i h
    have : n.history.length = n.k := by simpa using h
    rw [List.length_tail, List.length_singleton]
    omega
  · rename_i h
    have : n.history.length ≠ n.k := by simpa using h
    rw [List.length_singleton]
    omega

theorem addHistory_ne_nil (n : LRUKNode) (t : Nat) :
    (n.AddHistory t).history ≠ [] := by
  unfold LRUKNode.AddHistory
  dsimp only
  simp

/-! ### Shape lemmas for the operations -/

theorem recordAccess_invalid_eq {s : LRUKReplacer} {id : Nat}
    (h : ¬ id < s.maxNumFrames) : s.RecordAccess id = .error .invalidId := by
  unfold LRUKReplacer.RecordAccess LRUKReplacer.CheckFrameId
  rw [if_neg h]

theorem recordAccess_absent_eq {s : LRUKReplacer} {id : Nat}
    (hlt : id < s.maxNumFrames) (habs : s.nodeStore.lookup id = none) :
    s.RecordAccess id = .ok { s with
      currentTimestamp := s.currentTimestamp + 1,
      nodeStore := s.nodeStore
        ++ [(id, LRUKNode.mk s.k id [s.currentTimestamp + 1] false)] } := by
  unfold LRUKReplacer.RecordAccess LRUKReplacer.CheckFrameId
  rw [if_pos hlt]
  simp only [habs, Option.isSome_none, Bool.false_eq_true, if_false]
  have hupd : storeUpdate
      (s.nodeStore ++ [(id, LRUKNode.mk s.k id [] false)]) id
      (·.AddHistory (s.currentTimestamp + 1))
      = s.nodeStore ++ [(id, LRUKNode.mk s.k id [s.currentTimestamp + 1] false)] := by
    unfold storeUpdate
    rw [List.map_append]
    have h1 : storeUpdate s.nodeStore id (·.AddHistory (s.currentTimestamp + 1))
        = s.nodeStore := storeUpdate_eq_self _ (forall_ne_of_lookup_eq_none habs)
    unfold storeUpdate at h1
    rw [h1]
    simp [addHistory_empty]
  rw [hupd]

theorem recordAccess_present_eq {s : LRUKReplacer} {id : Nat}
    (hlt : id < s.maxNumFrames) (hpres : (s.nodeStore.lookup id).isSome = true) :
    s.RecordAccess id = .ok { s with
      currentTimestamp := s.currentTimestamp + 1,
      nodeStore := storeUpdate s.nodeStore id
        (·.AddHistory (s.currentTimestamp + 1)) } := by
  unfold LRUKReplacer.RecordAccess LRUKReplacer.CheckFrameId
  rw [if_pos hlt]
  simp only [hpres, if_true]

theorem applyOp_record_ok {s s2 : LRUKReplacer} {id : Nat}
    (h : s.RecordAccess id = .ok s2) : applyOp s (.record id) = s2 := by
  unfold applyOp
  dsimp only
  rw [h]
  rfl

theorem applyOp_record_err {s : LRUKReplacer} {id : Nat} {e : RepError}
    (h : s.RecordAccess id = .error e) : applyOp s (.record id) = s := by
  unfold applyOp
  dsimp only
  rw [h]
  rfl

theorem applyOp_setEvictable_ok {s s2 : LRUKReplacer} {id : Nat} {b : Bool}
    (h : s.SetEvictable id b = .ok s2) : applyOp s (.setEvictable id b) = s2 := by
  unfold applyOp
  dsimp only
  rw [h]
  rfl

theorem applyOp_setEvictable_err {s : LRUKReplacer} {id : Nat} {b : Bool} {e : RepError}
    (h : s.SetEvictable id b = .error e) : applyOp s (.setEvictable id b) = s := by
  unfold applyOp
  dsimp only
  rw [h]
  rfl

theorem applyOp_remove_ok {s s2 : LRUKReplacer} {id : Nat}
    (h : s.Remove id = .ok s2) : applyOp s (.remove id) = s2 := by
  unfold applyOp
  dsimp only
  rw [h]
  rfl

theorem applyOp_remove_err {s : LRUKReplacer} {id : Nat} {e : RepError}
    (h : s.Remove id = .error e) : applyOp s (.remove id) = s := by
  unfold applyOp
  dsimp only
  rw [h]
  rfl

/-! ### Preservation of the invariant by each operation -/

theorem evictable_of_isCand {n : LRUKNode} (h : isCand n = true) :
    n.evictable = true := by
  unfold isCand at h
  simp only [Bool.and_eq_true] at h
  exact h.1

theorem inv_record {cap k : Nat} {s : LRUKReplacer} (hk : 1 ≤ k)
    (hinv : Inv cap k s) (id : Nat) : Inv cap k (applyOp s (.record id)) := by
  by_cases hlt : id < s.maxNumFrames
  case neg =>
    rw [applyOp_record_err (recordAccess_invalid_eq hlt)]
    exact hinv
  case pos =>
    cases hpres : s.nodeStore.lookup id with
    | none =>
      rw [applyOp_record_ok (recordAccess_absent_eq hlt hpres)]
      refine ⟨hinv.cap_eq, hinv.k_eq, ?_, ?_, ?_, ?_, ?_, ?_, ?_, ?_, ?_, ?_⟩
      · dsimp only
        rw [List.map_append]
        rw [List.nodup_append]
        refine ⟨hinv.keys_nodup, by simp, ?_⟩
        intro a ha hb
        have hb' : a = id := by simpa using hb
        rw [hb'] at ha
        exact not_mem_keys_of_lookup_eq_none hpres ha
      · intro e he
        dsimp only at he
        rcases List.mem_append.mp he with h | h
        · exact hinv.keys_lt e h
        · rw [List.mem_singleton.mp h]
          rw [← hinv.cap_eq]
          exact hlt
      · intro e he
        dsimp only at he
        rcases List.mem_append.mp he with h | h
        · exact hinv.node_k e h
        · rw [List.mem_singleton.mp h]
          exact hinv.k_eq
      · intro e he
        dsimp only at he
        rcases List.mem_append.mp he with h | h
        · exact hinv.hist_sorted e h
        · rw [List.mem_singleton.mp h]
          exact List.chain'_singleton _
      · intro e he t ht
        dsimp only at he
        rcases List.mem_append.mp he with h | h
        · exact hinv.hist_pos e h t ht
        · rw [List.mem_singleton.mp h] at ht
          have ht' : t = s.currentTimestamp + 1 := by simpa using ht
          omega
      · intro e he t ht
        dsimp only at he ⊢
        show t ≤ s.currentTimestamp + 1
        rcases List.mem_append.mp he with h | h
        · have := hinv.hist_le e h t ht
          omega
        · rw [List.mem_singleton.mp h] at ht
          have ht' : t = s.currentTimestamp + 1 := by simpa using ht
          omega
      · intro e he
        dsimp only at he
        rcases List.mem_append.mp he with h | h
        · exact hinv.hist_len e h
        · rw [List.mem_singleton.mp h]
          show ([s.currentTimestamp + 1] : List Nat).length ≤ k
          simpa using hk
      · dsimp only
        rw [List.pairwise_append]
        refine ⟨hinv.disj, List.pairwise_singleton _ _, ?_⟩
        intro a ha b hb
        rw [List.mem_singleton.mp hb]
        intro t htm
        have := hinv.hist_le a ha t htm
        intro hc
        have hc' : t = s.currentTimestamp + 1 := by simpa using hc
        omega
      · intro e he
        dsimp only at he
        rcases List.mem_append.mp he with h | h
        · exact hinv.empty_not_ev e h
        · rw [List.mem_singleton.mp h]
          intro hc
          simp at hc
      · dsimp only
        rw [List.countP_append]
        have h1 : List.countP (fun e => e.2.evictable)
            [((id, LRUKNode.mk s.k id [s.currentTimestamp + 1] false) : Nat × LRUKNode)]
            = 0 := by
          simp [List.countP_cons]
        rw [h1]
        simpa using hinv.size_eq
    | some n =>
      have hpres' : (s.nodeStore.lookup id).isSome = true := by
        rw [hpres]
        rfl
      rw [applyOp_record_ok (recordAccess_present_eq hlt hpres')]
      refine ⟨hinv.cap_eq, hinv.k_eq, ?_, ?_, ?_, ?_, ?_, ?_, ?_, ?_, ?_, ?_⟩
      · dsimp only
        rw [storeUpdate_keys]
        exact hinv.keys_nodup
      · intro x hx
        dsimp only at hx
        obtain ⟨e, he, hx1, -⟩ := mem_storeUpdate hx
        rw [hx1]
        exact hinv.keys_lt e he
      · intro x hx
        dsimp only at hx
        obtain ⟨e, he, -, hx2⟩ := mem_storeUpdate hx
        rcases hx2 with h | ⟨-, h⟩
        · rw [h]
          exact hinv.node_k e he
        · rw [h]
          exact hinv.node_k e he
      · intro x hx
        dsimp only at hx
        obtain ⟨e, he, -, hx2⟩ := mem_storeUpdate hx
        rcases hx2 with h | ⟨-, h⟩
        · rw [h]
          exact hinv.hist_sorted e he
        · rw [h]
          refine addHistory_sorted (hinv.hist_sorted e he) ?_
          intro y hy
          have := hinv.hist_le e he y hy
          omega
      · intro x hx t ht
        dsimp only at hx
        obtain ⟨e, he, -, hx2⟩ := mem_storeUpdate hx
        rcases hx2 with h | ⟨-, h⟩
        · rw [h] at ht
          exact hinv.hist_pos e he t ht
        · rw [h] at ht
          rcases addHistory_mem ht with h2 | h2
          · exact hinv.hist_pos e he t h2
          · omega
      · intro x hx t ht
        dsimp only at hx ⊢
        show t ≤ s.currentTimestamp + 1
        obtain ⟨e, he, -, hx2⟩ := mem_storeUpdate hx
        rcases hx2 with h | ⟨-, h⟩
        · rw [h] at ht
          have := hinv.hist_le e he t ht
          omega
        · rw [h] at ht
          rcases addHistory_mem ht with h2 | h2
          · have := hinv.hist_le e he t h2
            omega
          · omega
      · intro x hx
        dsimp only at hx
        obtain ⟨e, he, -, hx2⟩ := mem_storeUpdate hx
        rcases hx2 with h | ⟨-, h⟩
        · rw [h]
          exact hinv.hist_len e he
        · rw [h]
          exact addHistory_length hk (hinv.node_k e he) (hinv.hist_len e he)
      · dsimp only
        unfold storeUpdate
        rw [List.pairwise_map]
        have hkeys : List.Pairwise (fun a b : Nat × LRUKNode => a.1 ≠ b.1) s.nodeStore :=
          List.pairwise_map.mp hinv.keys_nodup
        refine List.Pairwise.imp_of_mem ?_ (hkeys.and hinv.disj)
        intro a b ha hb hab
        obtain ⟨hne, hdisj⟩ := hab
        intro t htm
        by_cases hA : a.1 = id <;> by_cases hB : b.1 = id
        · exact absurd (hA.trans hB.symm) hne
        · rw [if_pos hA] at htm
          rw [if_neg hB]
          rcases addHistory_mem htm with h2 | h2
          · exact hdisj t h2
          · intro hc
            have := hinv.hist_le b hb t hc
            omega
        · rw [if_neg hA] at htm
          rw [if_pos hB]
          intro hc
          rcases addHistory_mem hc with h2 | h2
          · exact hdisj t htm h2
          · have := hinv.hist_le a ha t htm
            omega
        · rw [if_neg hA] at htm
          rw [if_neg hB]
          exact hdisj t htm
      · intro x hx hhist
        dsimp only at hx
        obtain ⟨e, he, -, hx2⟩ := mem_storeUpdate hx
        rcases hx2 with h | ⟨-, h⟩
        · rw [h] at hhist ⊢
          exact hinv.empty_not_ev e he hhist
        · rw [h] at hhist
          exact absurd hhist (addHistory_ne_nil _ _)
      · dsimp only
        rw [@countP_storeUpdate_of_preserve s.nodeStore id
          (fun x => x.AddHistory (s.currentTimestamp + 1)) fun m => rfl]
        exact hinv.size_eq

theorem inv_setflag {cap k : Nat} {s : LRUKReplacer} (hinv : Inv cap k s)
    {id : Nat} {n : LRUKNode} (hl : s.nodeStore.lookup id = some n)
    (hne : n.history ≠ []) (b : Bool) {sz : Nat}
    (hsz : sz = (storeUpdate s.nodeStore id
      (·.SetEvictable b)).countP fun e => e.2.evictable) :
    Inv cap k { s with replacerSize := sz,
                       nodeStore := storeUpdate s.nodeStore id (·.SetEvictable b) } := by
  have hhist : ∀ x ∈ storeUpdate s.nodeStore id (·.SetEvictable b),
      ∃ e ∈ s.nodeStore, x.1 = e.1 ∧ x.2.history = e.2.history ∧ x.2.k = e.2.k := by
    intro x hx
    obtain ⟨e, he, hx1, hx2⟩ := mem_storeUpdate hx
    rcases hx2 with h | ⟨-, h⟩
    · exact ⟨e, he, hx1, by rw [h], by rw [h]⟩
    · exact ⟨e, he, hx1, by rw [h]; rfl, by rw [h]; rfl⟩
  refine ⟨hinv.cap_eq, hinv.k_eq, ?_, ?_, ?_, ?_, ?_, ?_, ?_, ?_, ?_, ?_⟩
  · dsimp only
    rw [storeUpdate_keys]
    exact hinv.keys_nodup
  · intro x hx
    dsimp only at hx
    obtain ⟨e, he, hx1, -⟩ := hhist x hx
    rw [hx1]
    exact hinv.keys_lt e he
  · intro x hx
    dsimp only at hx
    obtain ⟨e, he, -, -, hxk⟩ := hhist x hx
    rw [hxk]
    exact hinv.node_k e he
  · intro x hx
    dsimp only at hx
    obtain ⟨e, he, -, hxh, -⟩ := hhist x hx
    rw [hxh]
    exact hinv.hist_sorted e he
  · intro x hx t ht
    dsimp only at hx
    obtain ⟨e, he, -, hxh, -⟩ := hhist x hx
    rw [hxh] at ht
    exact hinv.hist_pos e he t ht
  · intro x hx t ht
    dsimp only at hx ⊢
    obtain ⟨e, he, -, hxh, -⟩ := hhist x hx
    rw [hxh] at ht
    exact hinv.hist_le e he t ht
  · intro x hx
    dsimp only at hx
    obtain ⟨e, he, -, hxh, -⟩ := hhist x hx
    rw [hxh]
    exact hinv.hist_len e he
  · dsimp only
    unfold storeUpdate
    rw [List.pairwise_map]
    refine hinv.disj.imp ?_
    intro a b hab t htm
    have htm' : t ∈ a.2.history := by
      by_cases hA : a.1 = id
      · rw [if_pos hA] at htm
        exact htm
      · rw [if_neg hA] at htm
        exact htm
    by_cases hB : b.1 = id
    · rw [if_pos hB]
      exact hab t htm'
    · rw [if_neg hB]
      exact hab t htm'
  · intro x hx hxe
    dsimp only at hx
    obtain ⟨e, he, hx1, hx2⟩ := mem_storeUpdate hx
    rcases hx2 with h | ⟨hkey, h⟩
    · rw [h] at hxe ⊢
      exact hinv.empty_not_ev e he hxe
    · have hen : e.2 = n := eq_of_mem_key hinv.keys_nodup hl he hkey
      rw [h] at hxe
      have : e.2.history = [] := hxe
      rw [hen] at this
      exact absurd this hne
  · dsimp only
    exact hsz

theorem inv_setEvictable {cap k : Nat} {s : LRUKReplacer}
    (hinv : Inv cap k s) (id : Nat) (b : Bool) :
    Inv cap k (applyOp s (.setEvictable id b)) := by
  by_cases hlt : id < s.maxNumFrames
  case neg =>
    have herr : s.SetEvictable id b = .error .invalidId := by
      unfold LRUKReplacer.SetEvictable LRUKReplacer.CheckFrameId
      rw [if_neg hlt]
    rw [applyOp_setEvictable_err herr]
    exact hinv
  case pos =>
    cases hl : s.nodeStore.lookup id with
    | none =>
      have hok : s.SetEvictable id b = .ok s := by
        unfold LRUKReplacer.SetEvictable LRUKReplacer.CheckFrameId
        rw [if_pos hlt]
        dsimp only
        rw [hl]
      rw [applyOp_setEvictable_ok hok]
      exact hinv
    | some n =>
      by_cases hemp : n.IsEmpty = true
      · have hok : s.SetEvictable id b = .ok s := by
          simp [LRUKReplacer.SetEvictable, LRUKReplacer.CheckFrameId, hlt, hl, hemp]
        rw [applyOp_setEvictable_ok hok]
        exact hinv
      · have hemp' : n.IsEmpty = false := by
          cases hx : n.IsEmpty
          · rfl
          · exact absurd hx hemp
        have hne : n.history ≠ [] := by
          unfold LRUKNode.IsEmpty at hemp'
          simpa using hemp'
        cases b with
        | false =>
          cases hev : n.evictable with
          | false =>
            have hok : s.SetEvictable id false = .ok s := by
              simp [LRUKReplacer.SetEvictable, LRUKReplacer.CheckFrameId,
                hlt, hl, hemp', hev]
            rw [applyOp_setEvictable_ok hok]
            exact hinv
          | true =>
            have hok : s.SetEvictable id false = .ok
                { s with replacerSize := s.replacerSize - 1,
                         nodeStore := storeUpdate s.nodeStore id
                           (·.SetEvictable false) } := by
              simp [LRUKReplacer.SetEvictable, LRUKReplacer.CheckFrameId,
                hlt, hl, hemp', hev]
            rw [applyOp_setEvictable_ok hok]
            refine inv_setflag hinv hl hne false ?_
            have hcnt := countP_setflag false hinv.keys_nodup hl
            rw [hev] at hcnt
            simp at hcnt
            have hsz := hinv.size_eq
            omega
        | true =>
          cases hev : n.evictable with
          | true =>
            have hok : s.SetEvictable id true = .ok s := by
              simp [LRUKReplacer.SetEvictable, LRUKReplacer.CheckFrameId,
                hlt, hl, hemp', hev]
            rw [applyOp_setEvictable_ok hok]
            exact hinv
          | false =>
            have hok : s.SetEvictable id true = .ok
                { s with replacerSize := s.replacerSize + 1,
                         nodeStore := storeUpdate s.nodeStore id
                           (·.SetEvictable true) } := by
              simp [LRUKReplacer.SetEvictable, LRUKReplacer.CheckFrameId,
                hlt, hl, hemp', hev]
            rw [applyOp_setEvictable_ok hok]
            refine inv_setflag hinv hl hne true ?_
            have hcnt := countP_setflag true hinv.keys_nodup hl
            rw [hev] at hcnt
            simp at hcnt
            have hsz := hinv.size_eq
            omega

theorem inv_clear {cap k : Nat} {s : LRUKReplacer} (hinv : Inv cap k s)
    {id : Nat} {n : LRUKNode} (hl : s.nodeStore.lookup id = some n)
    (hev : n.evictable = true) :
    Inv cap k { s with nodeStore := storeUpdate s.nodeStore id (·.ClearNode),
                       replacerSize := s.replacerSize - 1 } := by
  have hsub : ∀ x ∈ storeUpdate s.nodeStore id (·.ClearNode),
      ∃ e ∈ s.nodeStore, x.1 = e.1 ∧ x.2.history ⊆ e.2.history ∧ x.2.k = e.2.k ∧
        (x.2.history = e.2.history ∨ x.2.history = []) := by
    intro x hx
    obtain ⟨e, he, hx1, hx2⟩ := mem_storeUpdate hx
    rcases hx2 with h | ⟨-, h⟩
    · exact ⟨e, he, hx1, by rw [h]; exact List.Subset.refl _, by rw [h],
        Or.inl (by rw [h])⟩
    · refine ⟨e, he, hx1, ?_, by rw [h]; rfl, Or.inr (by rw [h]; rfl)⟩
      rw [h]
      intro t ht
      simp [LRUKNode.ClearNode] at ht
  refine ⟨hinv.cap_eq, hinv.k_eq, ?_, ?_, ?_, ?_, ?_, ?_, ?_, ?_, ?_, ?_⟩
  · dsimp only
    rw [storeUpdate_keys]
    exact hinv.keys_nodup
  · intro x hx
    dsimp only at hx
    obtain ⟨e, he, hx1, -⟩ := hsub x hx
    rw [hx1]
    exact hinv.keys_lt e he
  · intro x hx
    dsimp only at hx
    obtain ⟨e, he, -, -, hxk, -⟩ := hsub x hx
    rw [hxk]
    exact hinv.node_k e he
  · intro x hx
    dsimp only at hx
    obtain ⟨e, he, -, -, -, hcase⟩ := hsub x hx
    rcases hcase with h | h
    · rw [h]
      exact hinv.hist_sorted e he
    · rw [h]
      exact List.chain'_nil
  · intro x hx t ht
    dsimp only at hx
    obtain ⟨e, he, -, hsubh, -, -⟩ := hsub x hx
    exact hinv.hist_pos e he t (hsubh ht)
  · intro x hx t ht
    dsimp only at hx ⊢
    obtain ⟨e, he, -, hsubh, -, -⟩ := hsub x hx
    exact hinv.hist_le e he t (hsubh ht)
  · intro x hx
    dsimp only at hx
    obtain ⟨e, he, -, -, -, hcase⟩ := hsub x hx
    rcases hcase with h | h
    · rw [h]
      exact hinv.hist_len e he
    · rw [h]
      exact Nat.zero_le k
  · dsimp only
    unfold storeUpdate
    rw [List.pairwise_map]
    refine hinv.disj.imp ?_
    intro a b hab t htm
    have htm' : t ∈ a.2.history := by
      by_cases hA : a.1 = id
      · rw [if_pos hA] at htm
        simp [LRUKNode.ClearNode] at htm
      · rw [if_neg hA] at htm
        exact htm
    by_cases hB : b.1 = id
    · rw [if_pos hB]
      intro hc
      simp [LRUKNode.ClearNode] at hc
    · rw [if_neg hB]
      exact hab t htm'
  · intro x hx hxe
    dsimp only at hx
    obtain ⟨e, he, hx1, hx2⟩ := mem_storeUpdate hx
    rcases hx2 with h | ⟨-, h⟩
    · rw [h] at hxe ⊢
      exact hinv.empty_not_ev e he hxe
    · rw [h]
      rfl
  · dsimp only
    have hcnt := countP_clear hinv.keys_nodup hl
    rw [hev] at hcnt
    simp at hcnt
    have hsz := hinv.size_eq
    omega

theorem inv_remove {cap k : Nat} {s : LRUKReplacer}
    (hinv : Inv cap k s) (id : Nat) : Inv cap k (applyOp s (.remove id)) := by
  cases hl : s.nodeStore.lookup id with
  | none =>
    have hok : s.Remove id = .ok s := by
      unfold LRUKReplacer.Remove
      rw [hl]
    rw [applyOp_remove_ok hok]
    exact hinv
  | some n =>
    by_cases hemp : n.IsEmpty = true
    · have hok : s.Remove id = .ok s := by
        simp [LRUKReplacer.Remove, hl, hemp]
      rw [applyOp_remove_ok hok]
      exact hinv
    · have hemp' : n.IsEmpty = false := by
        cases hx : n.IsEmpty
        · rfl
        · exact absurd hx hemp
      cases hev : n.evictable with
      | false =>
        have herr : s.Remove id = .error .frameInUse := by
          simp [LRUKReplacer.Remove, hl, hemp', hev]
        rw [applyOp_remove_err herr]
        exact hinv
      | true =>
        have hok : s.Remove id = .ok
            { s with nodeStore := storeUpdate s.nodeStore id (·.ClearNode),
                     replacerSize := s.replacerSize - 1 } := by
          simp [LRUKReplacer.Remove, hl, hemp', hev]
        rw [applyOp_remove_ok hok]
        exact inv_clear hinv hl hev

theorem evict_none_eq {s : LRUKReplacer}
    (h : (s.nodeStore.foldl (evictStep s.k) ⟨false, 0, 0, none⟩).evictId = none) :
    s.Evict = (none, s) := by
  simp only [LRUKReplacer.Evict, h]

theorem evict_some_eq {s : LRUKReplacer} {fid : Nat}
    (h : (s.nodeStore.foldl (evictStep s.k) ⟨false, 0, 0, none⟩).evictId = some fid) :
    s.Evict = (some fid,
      { s with replacerSize := s.replacerSize - 1,
               nodeStore := storeUpdate s.nodeStore fid (·.ClearNode) }) := by
  simp only [LRUKReplacer.Evict, h]

theorem evict_victim_cand {cap k : Nat} {s : LRUKReplacer} (hk : 1 ≤ k)
    (hinv : Inv cap k s) {fid : Nat}
    (h : (s.nodeStore.foldl (evictStep s.k) ⟨false, 0, 0, none⟩).evictId = some fid) :
    ∃ n, s.nodeStore.lookup fid = some n ∧ isCand n = true := by
  rw [hinv.k_eq] at h
  obtain ⟨hg1, hg2, hg3⟩ := good_scan k s.nodeStore (posNode_of_inv hk hinv)
  cases hinf : (s.nodeStore.foldl (evictStep k) ⟨false, 0, 0, none⟩).hasInf with
  | true =>
    obtain ⟨e, hep, hes, hid, -, -⟩ := hg2 hinf
    rw [h] at hid
    have hfid : fid = e.1 := by
      simpa using hid
    refine ⟨e.2, ?_, isCand_of_isShort hes⟩
    rw [hfid]
    exact lookup_eq_some_of_mem hinv.keys_nodup hep
  | false =>
    obtain ⟨-, hrest⟩ := hg3 hinf
    rcases hrest with ⟨hid, -, -⟩ | ⟨e, hep, hef, hid, -, -⟩
    · rw [h] at hid
      simp at hid
    · rw [h] at hid
      have hfid : fid = e.1 := by
        simpa using hid
      refine ⟨e.2, ?_, isCand_of_isFull hef⟩
      rw [hfid]
      exact lookup_eq_some_of_mem hinv.keys_nodup hep

theorem inv_evict {cap k : Nat} {s : LRUKReplacer} (hk : 1 ≤ k)
    (hinv : Inv cap k s) : Inv cap k (applyOp s .evict) := by
  have happ : applyOp s .evict = (s.Evict).2 := rfl
  rw [happ]
  cases hacc : (s.nodeStore.foldl (evictStep s.k) ⟨false, 0, 0, none⟩).evictId with
  | none =>
    rw [evict_none_eq hacc]
    exact hinv
  | some fid =>
    obtain ⟨n, hl, hcand⟩ := evict_victim_cand hk hinv hacc
    rw [evict_some_eq hacc]
    exact inv_clear hinv hl (evictable_of_isCand hcand)

theorem inv_of_reachable {cap k : Nat} (hk : 1 ≤ k) {s : LRUKReplacer}
    (hr : Reachable cap k s) : Inv cap k s := by
  induction hr with
  | init => exact inv_init cap k
  | step s2 op hr2 ih =>
    cases op with
    | record id => exact inv_record hk ih id
    | setEvictable id b => exact inv_setEvictable ih id b
    | remove id => exact inv_remove ih id
    | evict => exact inv_evict hk ih

/-! ### The claims -/

theorem isEmpty_eq_false_of_ne {n : LRUKNode} (h : ¬ n.IsEmpty = true) :
    n.IsEmpty = false := by
  cases hx : n.IsEmpty
  · rfl
  · exact absurd hx h

/-- C1: in every reachable replacer state (constructed with positive `k`)
that has a tracked, evictable frame with fewer than `k` recorded accesses,
`Evict` selects a victim whose record is Short and not Full, never a frame
with `k` or more recorded accesses, regardless of timestamps. -/
theorem evict_prefers_short (cap k : Nat) (s : LRUKReplacer) (hk : 1 ≤ k)
    (hr : Reachable cap k s)
    (hshort : (s.nodeStore.any fun e => isShort k e.2) = true) :
    ∃ fid n, (s.Evict).1 = some fid ∧ (fid, n) ∈ s.nodeStore ∧
      isShort k n = true ∧ isFull k n = false ∧
      ∀ m, (fid, m) ∈ s.nodeStore → m = n := by
  have hinv := inv_of_reachable hk hr
  obtain ⟨e0, he0, hs0⟩ := List.any_eq_true.mp hshort
  obtain ⟨hg1, hg2, hg3⟩ := good_scan k s.nodeStore (posNode_of_inv hk hinv)
  have hinf : (s.nodeStore.foldl (evictStep k) ⟨false, 0, 0, none⟩).hasInf = true :=
    hg1.mpr ⟨e0, he0, hs0⟩
  obtain ⟨e, hep, hes, hid, hfk, hmin⟩ := hg2 hinf
  have hacc : (s.nodeStore.foldl (evictStep s.k) ⟨false, 0, 0, none⟩).evictId
      = some e.1 := by
    rw [hinv.k_eq]
    exact hid
  refine ⟨e.1, e.2, ?_, hep, hes, ?_, ?_⟩
  · rw [evict_some_eq hacc]
  · cases hb : isFull k e.2
    · rfl
    · have h1 := le_size_of_isFull hb
      have h2 := size_lt_of_isShort hes
      omega
  · intro m hm
    have h1 := lookup_eq_some_of_mem hinv.keys_nodup hm
    have h2 := lookup_eq_some_of_mem hinv.keys_nodup
      (show (e.1, e.2) ∈ s.nodeStore from hep)
    rw [h1] at h2
    exact Option.some_injective _ h2

/-- C2: in every reachable replacer state (constructed with positive `k`)
whose set of Short frames is non-empty, `Evict` returns the id of a Short
frame whose oldest history entry is minimal among all Short frames; by C9
the minimum is attained by a unique frame. -/
theorem evict_short_min (cap k : Nat) (s : LRUKReplacer) (hk : 1 ≤ k)
    (hr : Reachable cap k s)
    (hshort : (s.nodeStore.any fun e => isShort k e.2) = true) :
    ∃ fid n, (s.Evict).1 = some fid ∧ (fid, n) ∈ s.nodeStore ∧
      isShort k n = true ∧ (∀ m, (fid, m) ∈ s.nodeStore → m = n) ∧
      ∀ e ∈ s.nodeStore, isShort k e.2 = true →
        n.EarliestTime ≤ e.2.EarliestTime := by
  have hinv := inv_of_reachable hk hr
  obtain ⟨e0, he0, hs0⟩ := List.any_eq_true.mp hshort
  obtain ⟨hg1, hg2, hg3⟩ := good_scan k s.nodeStore (posNode_of_inv hk hinv)
  have hinf : (s.nodeStore.foldl (evictStep k) ⟨false, 0, 0, none⟩).hasInf = true :=
    hg1.mpr ⟨e0, he0, hs0⟩
  obtain ⟨e, hep, hes, hid, hfk, hmin⟩ := hg2 hinf
  have hacc : (s.nodeStore.foldl (evictStep s.k) ⟨false, 0, 0, none⟩).evictId
      = some e.1 := by
    rw [hinv.k_eq]
    exact hid
  refine ⟨e.1, e.2, ?_, hep, hes, ?_, hmin⟩
  · rw [evict_some_eq hacc]
  · intro m hm
    have h1 := lookup_eq_some_of_mem hinv.keys_nodup hm
    have h2 := lookup_eq_some_of_mem hinv.keys_nodup
      (show (e.1, e.2) ∈ s.nodeStore from hep)
    rw [h1] at h2
    exact Option.some_injective _ h2

/-- C3: in every reachable replacer state (constructed with positive `k`)
that has an evictable non-empty frame but no Short frame, `Evict` returns
the id of a Full frame whose k-th most recent access is minimal among all
Full frames; by C9 the minimum is attained by a unique frame. -/
theorem evict_full_min (cap k : Nat) (s : LRUKReplacer) (hk : 1 ≤ k)
    (hr : Reachable cap k s)
    (hcand : (s.nodeStore.any fun e => isCand e.2) = true)
    (hnoshort : (s.nodeStore.all fun e => !(isShort k e.2)) = true) :
    ∃ fid n, (s.Evict).1 = some fid ∧ (fid, n) ∈ s.nodeStore ∧
      isFull k n = true ∧ (∀ m, (fid, m) ∈ s.nodeStore → m = n) ∧
      ∀ e ∈ s.nodeStore, isFull k e.2 = true →
        n.LastKTime k ≤ e.2.LastKTime k := by
  have hinv := inv_of_reachable hk hr
  have hnos : ∀ e ∈ s.nodeStore, isShort k e.2 = false := by
    intro e he
    have := List.all_eq_true.mp hnoshort e he
    simpa using this
  obtain ⟨e0, he0, hc0⟩ := List.any_eq_true.mp hcand
  have hf0 : isFull k e0.2 = true := by
    refine isFull_eq_true_iff.mpr ⟨hc0, ?_⟩
    by_cases hlt : e0.2.Size < k
    · have hshort0 : isShort k e0.2 = true := isShort_eq_true_iff.mpr ⟨hc0, hlt⟩
      rw [hnos e0 he0] at hshort0
      exact absurd hshort0 (by simp)
    · omega
  obtain ⟨hg1, hg2, hg3⟩ := good_scan k s.nodeStore (posNode_of_inv hk hinv)
  cases hinf : (s.nodeStore.foldl (evictStep k) ⟨false, 0, 0, none⟩).hasInf with
  | true =>
    obtain ⟨e, hep, hes, -, -, -⟩ := hg2 hinf
    rw [hnos e hep] at hes
    exact absurd hes (by simp)
  | false =>
    obtain ⟨-, hrest⟩ := hg3 hinf
    rcases hrest with ⟨-, -, hnofull⟩ | ⟨e, hep, hef, hid, hbk, hmin⟩
    · rw [hnofull e0 he0] at hf0
      exact absurd hf0 (by simp)
    · have hacc : (s.nodeStore.foldl (evictStep s.k) ⟨false, 0, 0, none⟩).evictId
          = some e.1 := by
        rw [hinv.k_eq]
        exact hid
      refine ⟨e.1, e.2, ?_, hep, hef, ?_, hmin⟩
      · rw [evict_some_eq hacc]
      · intro m hm
        have h1 := lookup_eq_some_of_mem hinv.keys_nodup hm
        have h2 := lookup_eq_some_of_mem hinv.keys_nodup
          (show (e.1, e.2) ∈ s.nodeStore from hep)
        rw [h1] at h2
        exact Option.some_injective _ h2

theorem isEmpty_eq_false_of_ne_nil {n : LRUKNode} (h : n.history ≠ []) :
    n.IsEmpty = false := by
  unfold LRUKNode.IsEmpty
  cases hll : n.history
  · exact absurd hll h
  · rfl

theorem isEmpty_eq_true_of_nil {n : LRUKNode} (h : n.history = []) :
    n.IsEmpty = true := by
  unfold LRUKNode.IsEmpty
  rw [h]
  rfl

/-- C4: in every reachable replacer state (constructed with positive `k`),
`Size()` equals the number of frame records whose evictable flag is true;
the increments and decrements performed by the operations keep the cached
counter exact. -/
theorem size_eq_evictable_count (cap k : Nat) (s : LRUKReplacer) (hk : 1 ≤ k)
    (hr : Reachable cap k s) :
    s.Size = (s.nodeStore.filter fun e => e.2.evictable).length := by
  have hinv := inv_of_reachable hk hr
  show s.replacerSize = _
  rw [hinv.size_eq, List.countP_eq_length_filter]

/-- C5: in every reachable replacer state (constructed with positive `k`),
every frame's history has length at most `k`; and when `AddHistory` is
applied to a record whose history already holds `k` entries, the oldest
entry is dropped before the new clock value is appended. -/
theorem history_bounded (cap k : Nat) (s : LRUKReplacer) (hk : 1 ≤ k)
    (hr : Reachable cap k s) :
    (∀ e ∈ s.nodeStore, e.2.history.length ≤ k) ∧
    (∀ (n : LRUKNode) (t : Nat), n.history.length = n.k →
      (n.AddHistory t).history = n.history.tail ++ [t]) := by
  refine ⟨(inv_of_reachable hk hr).hist_len, ?_⟩
  intro n t h
  unfold LRUKNode.AddHistory
  simp [h]

/-- C6: `Remove` is a no-op on untracked ids (in particular every id outside
`[0, capacity)` is untracked) and on empty records; it fails with the
frame-in-use error and changes nothing on a tracked, non-empty,
non-evictable record; and on a tracked, non-empty, evictable record it
empties the history, resets the evictable flag, and decrements the
evictable count by one. -/
theorem remove_cases (cap k : Nat) (s : LRUKReplacer) (id : Nat) (hk : 1 ≤ k)
    (hr : Reachable cap k s) :
    (cap ≤ id → s.nodeStore.lookup id = none) ∧
    (s.nodeStore.lookup id = none → s.Remove id = .ok s) ∧
    (∀ n, s.nodeStore.lookup id = some n → n.history = [] →
      s.Remove id = .ok s) ∧
    (∀ n, s.nodeStore.lookup id = some n → n.history ≠ [] →
      n.evictable = false →
      s.Remove id = .error .frameInUse ∧ applyOp s (.remove id) = s) ∧
    (∀ n, s.nodeStore.lookup id = some n → n.history ≠ [] →
      n.evictable = true →
      ∃ s2, s.Remove id = .ok s2 ∧
        s2.nodeStore.lookup id = some n.ClearNode ∧
        n.ClearNode.history = [] ∧ n.ClearNode.evictable = false ∧
        s2.Size + 1 = s.Size) := by
  have hinv := inv_of_reachable hk hr
  refine ⟨?_, ?_, ?_, ?_, ?_⟩
  · intro hge
    cases hl : s.nodeStore.lookup id with
    | none => rfl
    | some n =>
      have hmem := mem_of_lookup_eq_some hl
      have := hinv.keys_lt _ hmem
      omega
  · intro hl
    unfold LRUKReplacer.Remove
    rw [hl]
  · intro n hl hh
    simp [LRUKReplacer.Remove, hl, isEmpty_eq_true_of_nil hh]
  · intro n hl hh hev
    have herr : s.Remove id = .error .frameInUse := by
      simp [LRUKReplacer.Remove, hl, isEmpty_eq_false_of_ne_nil hh, hev]
    exact ⟨herr, applyOp_remove_err herr⟩
  · intro n hl hh hev
    have hok : s.Remove id = .ok
        { s with nodeStore := storeUpdate s.nodeStore id (·.ClearNode),
                 replacerSize := s.replacerSize - 1 } := by
      simp [LRUKReplacer.Remove, hl, isEmpty_eq_false_of_ne_nil hh, hev]
    refine ⟨_, hok, lookup_storeUpdate_self _ hl, rfl, rfl, ?_⟩
    have hpos : 0 < s.nodeStore.countP (fun e => e.2.evictable) :=
      List.countP_pos_iff.mpr ⟨(id, n), mem_of_lookup_eq_some hl, by simpa using hev⟩
    have hsz := hinv.size_eq
    show s.replacerSize - 1 + 1 = s.replacerSize
    omega

/-- C7: `RecordAccess` on an id outside `[0, capacity)` fails with the
invalid-identifier error and leaves the whole state unchanged: no record
is created and the clock is not advanced. -/
theorem recordAccess_out_of_range (s : LRUKReplacer) (id : Nat)
    (h : s.maxNumFrames ≤ id) :
    s.RecordAccess id = .error .invalidId ∧ applyOp s (.record id) = s := by
  have h2 : ¬ id < s.maxNumFrames := by omega
  exact ⟨recordAccess_invalid_eq h2, applyOp_record_err (recordAccess_invalid_eq h2)⟩

/-- C8: `SetEvictable` is a no-op on absent or empty records and when the
flag already has the requested value; making a non-evictable, non-empty
record evictable twice in a row grows `Size()` by exactly one, the second
call returning the state unchanged. -/
theorem setEvictable_noop_of_flag_eq {s : LRUKReplacer} {id : Nat} {n : LRUKNode}
    (b : Bool) (hid : id < s.maxNumFrames) (hl : s.nodeStore.lookup id = some n)
    (hev : n.evictable = b) : s.SetEvictable id b = .ok s := by
  by_cases hemp : n.IsEmpty = true
  · simp [LRUKReplacer.SetEvictable, LRUKReplacer.CheckFrameId, hid, hl, hemp]
  · have hemp' := isEmpty_eq_false_of_ne hemp
    cases b with
    | false =>
      simp [LRUKReplacer.SetEvictable, LRUKReplacer.CheckFrameId, hid, hl,
        hemp', hev]
    | true =>
      simp [LRUKReplacer.SetEvictable, LRUKReplacer.CheckFrameId, hid, hl,
        hemp', hev]

theorem setEvictable_noop_idem (s : LRUKReplacer) (id : Nat) (b : Bool)
    (hid : id < s.maxNumFrames) :
    (s.nodeStore.lookup id = none → s.SetEvictable id b = .ok s) ∧
    (∀ n, s.nodeStore.lookup id = some n → n.history = [] →
      s.SetEvictable id b = .ok s) ∧
    (∀ n, s.nodeStore.lookup id = some n → n.evictable = b →
      s.SetEvictable id b = .ok s) ∧
    (∀ n, s.nodeStore.lookup id = some n → n.history ≠ [] →
      n.evictable = false →
      ∃ s2, s.SetEvictable id true = .ok s2 ∧ s2.SetEvictable id true = .ok s2 ∧
        s2.Size = s.Size + 1) := by
  refine ⟨?_, ?_, ?_, ?_⟩
  · intro hl
    unfold LRUKReplacer.SetEvictable LRUKReplacer.CheckFrameId
    rw [if_pos hid]
    dsimp only
    rw [hl]
  · intro n hl hh
    simp [LRUKReplacer.SetEvictable, LRUKReplacer.CheckFrameId, hid, hl,
      isEmpty_eq_true_of_nil hh]
  · intro n hl hev
    exact setEvictable_noop_of_flag_eq b hid hl hev
  · intro n hl hh hev
    have hemp' := isEmpty_eq_false_of_ne_nil hh
    have hok1 : s.SetEvictable id true = .ok
        { s with replacerSize := s.replacerSize + 1,
                 nodeStore := storeUpdate s.nodeStore id (·.SetEvictable true) } := by
      simp [LRUKReplacer.SetEvictable, LRUKReplacer.CheckFrameId, hid, hl,
        hemp', hev]
    refine ⟨_, hok1, ?_, rfl⟩
    have hl2 : (storeUpdate s.nodeStore id (·.SetEvictable true)).lookup id
        = some (n.SetEvictable true) := lookup_storeUpdate_self _ hl
    exact setEvictable_noop_of_flag_eq true hid hl2 rfl

/-- C9: in every reachable replacer state (constructed with positive `k`),
all history entries are strictly positive clock values, the entries of one
frame are strictly increasing, and no clock value occurs in the histories
of two frames with different ids — so the zero sentinels of the eviction
scan never collide with a real timestamp and its minima are unique. -/
theorem clock_value_invariants (cap k : Nat) (s : LRUKReplacer) (hk : 1 ≤ k)
    (hr : Reachable cap k s) :
    (∀ e ∈ s.nodeStore, ∀ t ∈ e.2.history, 1 ≤ t) ∧
    (∀ e ∈ s.nodeStore, List.Chain' (· < ·) e.2.history) ∧
    (∀ e ∈ s.nodeStore, ∀ e2 ∈ s.nodeStore, e.1 ≠ e2.1 →
      ∀ t ∈ e.2.history, t ∉ e2.2.history) := by
  have hinv := inv_of_reachable hk hr
  refine ⟨hinv.hist_pos, hinv.hist_sorted, ?_⟩
  have hpair : List.Pairwise (fun a b : Nat × LRUKNode =>
      a.1 ≠ b.1 → ∀ t ∈ a.2.history, t ∉ b.2.history) s.nodeStore :=
    ((List.pairwise_map.mp hinv.keys_nodup).and hinv.disj).imp fun hab _ => hab.2
  have hsymm : Symmetric (fun a b : Nat × LRUKNode =>
      a.1 ≠ b.1 → ∀ t ∈ a.2.history, t ∉ b.2.history) := by
    intro a b hab hne t hta htb
    exact hab hne.symm t htb hta
  intro e he e2 he2 hne
  by_cases heq : e = e2
  · exact absurd (congrArg Prod.fst heq) hne
  · exact hpair.forall hsymm he he2 heq hne

/-! ### Concrete runs used by the witnesses -/

/-- Scenario A of the spec: five accesses, then four frames made evictable.
Frame 1 is Full (`[1, 3]`); frames 2, 3, 4 are Short. -/
def opsA : List Op :=
  [.record 1, .record 2, .record 1, .record 3, .record 4,
   .setEvictable 1 true, .setEvictable 2 true, .setEvictable 3 true,
   .setEvictable 4 true]

/-- One Full frame (two accesses) and one Short frame (one access). -/
def opsMixed : List Op :=
  [.record 1, .record 1, .record 2, .setEvictable 1 true, .setEvictable 2 true]

/-- Two Full frames, no Short frame. -/
def opsFull2 : List Op :=
  [.record 1, .record 1, .record 2, .record 2,
   .setEvictable 1 true, .setEvictable 2 true]

/-- Frame 1 accessed twice, frame 2 once; nothing made evictable yet, so
frame 1 is tracked, non-empty and non-evictable. -/
def opsNoEv : List Op := [.record 1, .record 1, .record 2]

theorem evict_prefers_short_witness :
    1 ≤ 2 ∧ ((runOps 10 2 opsMixed).nodeStore.any fun e => isShort 2 e.2) = true ∧
    ∃ fid n, ((runOps 10 2 opsMixed).Evict).1 = some fid ∧
      (fid, n) ∈ (runOps 10 2 opsMixed).nodeStore ∧
      isShort 2 n = true ∧ isFull 2 n = false ∧
      ∀ m, (fid, m) ∈ (runOps 10 2 opsMixed).nodeStore → m = n :=
  ⟨by decide, by decide,
    evict_prefers_short 10 2 (runOps 10 2 opsMixed) (by decide)
      (reachable_runOps 10 2 opsMixed) (by decide)⟩

theorem evict_short_min_witness :
    1 ≤ 2 ∧ ((runOps 10 2 opsA).nodeStore.any fun e => isShort 2 e.2) = true ∧
    ∃ fid n, ((runOps 10 2 opsA).Evict).1 = some fid ∧
      (fid, n) ∈ (runOps 10 2 opsA).nodeStore ∧
      isShort 2 n = true ∧ (∀ m, (fid, m) ∈ (runOps 10 2 opsA).nodeStore → m = n) ∧
      ∀ e ∈ (runOps 10 2 opsA).nodeStore, isShort 2 e.2 = true →
        n.EarliestTime ≤ e.2.EarliestTime :=
  ⟨by decide, by decide,
    evict_short_min 10 2 (runOps 10 2 opsA) (by decide)
      (reachable_runOps 10 2 opsA) (by decide)⟩

theorem evict_full_min_witness :
    1 ≤ 2 ∧ ((runOps 10 2 opsFull2).nodeStore.any fun e => isCand e.2) = true ∧
    ((runOps 10 2 opsFull2).nodeStore.all fun e => !(isShort 2 e.2)) = true ∧
    ∃ fid n, ((runOps 10 2 opsFull2).Evict).1 = some fid ∧
      (fid, n) ∈ (runOps 10 2 opsFull2).nodeStore ∧
      isFull 2 n = true ∧
      (∀ m, (fid, m) ∈ (runOps 10 2 opsFull2).nodeStore → m = n) ∧
      ∀ e ∈ (runOps 10 2 opsFull2).nodeStore, isFull 2 e.2 = true →
        n.LastKTime 2 ≤ e.2.LastKTime 2 :=
  ⟨by decide, by decide, by decide,
    evict_full_min 10 2 (runOps 10 2 opsFull2) (by decide)
      (reachable_runOps 10 2 opsFull2) (by decide) (by decide)⟩

theorem size_eq_evictable_count_witness :
    1 ≤ 2 ∧ (runOps 10 2 opsA).Size
      = ((runOps 10 2 opsA).nodeStore.filter fun e => e.2.evictable).length :=
  ⟨by decide,
    size_eq_evictable_count 10 2 (runOps 10 2 opsA) (by decide)
      (reachable_runOps 10 2 opsA)⟩

theorem history_bounded_witness :
    1 ≤ 2 ∧
    ((∀ e ∈ (runOps 10 2 opsA).nodeStore, e.2.history.length ≤ 2) ∧
     (∀ (n : LRUKNode) (t : Nat), n.history.length = n.k →
       (n.AddHistory t).history = n.history.tail ++ [t])) :=
  ⟨by decide,
    history_bounded 10 2 (runOps 10 2 opsA) (by decide)
      (reachable_runOps 10 2 opsA)⟩

theorem remove_cases_witness :
    1 ≤ 2 ∧
    (((runOps 10 2 opsA).nodeStore.lookup 1 = none →
        (runOps 10 2 opsA).Remove 1 = .ok (runOps 10 2 opsA)) ∧
     (∀ n, (runOps 10 2 opsA).nodeStore.lookup 1 = some n → n.history = [] →
        (runOps 10 2 opsA).Remove 1 = .ok (runOps 10 2 opsA)) ∧
     (∀ n, (runOps 10 2 opsA).nodeStore.lookup 1 = some n → n.history ≠ [] →
        n.evictable = false →
        (runOps 10 2 opsA).Remove 1 = .error .frameInUse ∧
          applyOp (runOps 10 2 opsA) (.remove 1) = runOps 10 2 opsA) ∧
     (∀ n, (runOps 10 2 opsA).nodeStore.lookup 1 = some n → n.history ≠ [] →
        n.evictable = true →
        ∃ s2, (runOps 10 2 opsA).Remove 1 = .ok s2 ∧
          s2.nodeStore.lookup 1 = some n.ClearNode ∧
          n.ClearNode.history = [] ∧ n.ClearNode.evictable = false ∧
          s2.Size + 1 = (runOps 10 2 opsA).Size)) :=
  ⟨by decide,
    ((remove_cases 10 2 (runOps 10 2 opsA) 1 (by decide)
      (reachable_runOps 10 2 opsA)).2)⟩

theorem recordAccess_out_of_range_witness :
    (LRUKReplacer.init 10 2).maxNumFrames ≤ 10 ∧
    (LRUKReplacer.init 10 2).RecordAccess 10 = .error .invalidId ∧
    applyOp (LRUKReplacer.init 10 2) (.record 10) = LRUKReplacer.init 10 2 :=
  ⟨by decide, recordAccess_out_of_range (LRUKReplacer.init 10 2) 10 (by decide)⟩

theorem setEvictable_noop_idem_witness :
    1 < (runOps 10 2 opsNoEv).maxNumFrames ∧
    (runOps 10 2 opsNoEv).nodeStore.lookup 1
      = some (LRUKNode.mk 2 1 [1, 2] false) ∧
    (LRUKNode.mk 2 1 [1, 2] false).history ≠ [] ∧
    (LRUKNode.mk 2 1 [1, 2] false).evictable = false ∧
    (runOps 10 2 opsNoEv).SetEvictable 1 false = .ok (runOps 10 2 opsNoEv) ∧
    (∃ s2, (runOps 10 2 opsNoEv).SetEvictable 1 true = .ok s2 ∧
      s2.SetEvictable 1 true = .ok s2 ∧
      s2.Size = (runOps 10 2 opsNoEv).Size + 1) ∧
    (runOps 10 2 opsNoEv).nodeStore.lookup 5 = none ∧
    (runOps 10 2 opsNoEv).SetEvictable 5 false = .ok (runOps 10 2 opsNoEv) :=
  ⟨by decide, by decide, by decide, by decide,
    (setEvictable_noop_idem (runOps 10 2 opsNoEv) 1 false (by decide)).2.2.1
      (LRUKNode.mk 2 1 [1, 2] false) (by decide) rfl,
    (setEvictable_noop_idem (runOps 10 2 opsNoEv) 1 false (by decide)).2.2.2
      (LRUKNode.mk 2 1 [1, 2] false) (by decide) (by decide) rfl,
    by decide,
    (setEvictable_noop_idem (runOps 10 2 opsNoEv) 5 false (by decide)).1
      (by decide)⟩

theorem clock_value_invariants_witness :
    1 ≤ 2 ∧
    ((∀ e ∈ (runOps 10 2 opsA).nodeStore, ∀ t ∈ e.2.history, 1 ≤ t) ∧
     (∀ e ∈ (runOps 10 2 opsA).nodeStore, List.Chain' (· < ·) e.2.history) ∧
     (∀ e ∈ (runOps 10 2 opsA).nodeStore, ∀ e2 ∈ (runOps 10 2 opsA).nodeStore,
        e.1 ≠ e2.1 → ∀ t ∈ e.2.history, t ∉ e2.2.history)) :=
  ⟨by decide,
    clock_value_invariants 10 2 (runOps 10 2 opsA) (by decide)
      (reachable_runOps 10 2 opsA)⟩

end LRUK
